import Mathlib

/-!
Verification of the mdns-discover design notes against the Go sources.

The embedding follows src/service.go and the current variant of src/main.go
(the one defining the sentinel errors and exit codes 3, 4, 5).  Go maps used
only for membership (`map[string]struct{}`) are modelled as lists of strings
with a membership test and a guarded insert; Go `map[string]string` is an
association list with Go assignment semantics (later assignment to the same
key overwrites the value).  The mDNS resolver is an external collaborator:
its behaviour is an input to the model (a list of raw entries and the way the
stream terminated), never something the model invents.
-/

set_option maxHeartbeats 1600000

namespace MdnsDiscover

/-- Membership test of a Go `map[string]struct{}` (the comma-ok read). -/
def setMember (s : List String) (k : String) : Bool := s.contains k

/-- Insertion into a Go `map[string]struct{}`.  In the sources every
insertion is guarded by a failed membership test, so the guarded insert
captures the observable behaviour. -/
def setInsert (s : List String) (k : String) : List String :=
  if s.contains k then s else s ++ [k]

/-- Assignment `m[k] = v` on a Go `map[string]string`: overwrite the value
when the key is present, add the pair otherwise. -/
def mapInsert : List (String × String) → String → String → List (String × String)
  | [], k, v => [(k, v)]
  | (k₀, v₀) :: rest, k, v =>
      if k₀ = k then (k, v) :: rest else (k₀, v₀) :: mapInsert rest k v

/-- Read of a Go `map[string]string`. -/
def mapLookup : List (String × String) → String → Option String
  | [], _ => none
  | (k₀, v₀) :: rest, k => if k₀ = k then some v₀ else mapLookup rest k

/-- Character-level worker for `strings.SplitN(raw, "=", 2)`: `none` when
there is no `=`, otherwise the characters before and after the first `=`. -/
def splitEqChars : List Char → Option (List Char × List Char)
  | [] => none
  | c :: cs =>
      if c = '=' then some ([], cs)
      else
        match splitEqChars cs with
        | none => none
        | some (a, b) => some (c :: a, b)

/-- Go `strings.SplitN(raw, "=", 2)`: `none` models the one-element result
(no `=` in `raw`), `some (k, v)` the two-element result. -/
def splitFirstEq (raw : String) : Option (String × String) :=
  match splitEqChars raw.data with
  | none => none
  | some (a, b) => some (⟨a⟩, ⟨b⟩)

/-- Deduplication key, src/service.go lines 79 to 81: the Go source is
`host + "|" + addr + "|" + fmt.Sprint(port)`, and `fmt.Sprint` renders an
int in decimal with a leading minus sign for negatives, as `toString` on
`Int` does. -/
def buildKey (host addr : String) (port : Int) : String :=
  host ++ "|" ++ addr ++ "|" ++ toString port

/-- One processing step of the loop body of `parseTXT` (src/service.go
lines 90 to 98): skip the empty segment, skip a segment without `=`, skip a
segment whose part before the first `=` is empty, otherwise assign. -/
def parseTXTStep (m : List (String × String)) (raw : String) : List (String × String) :=
  if raw = "" then m
  else
    match splitFirstEq raw with
    | none => m
    | some (k, v) => if k = "" then m else mapInsert m k v

/-- Go `parseTXT` (src/service.go lines 84 to 103).  The `nil` map of the Go
source is `none`; a non-`nil` map is `some` of the association list. -/
def parseTXT (txt : List String) : String × Option (List (String × String)) :=
  if txt = [] then ("", none)
  else
    let joined := String.intercalate ";" txt
    let m := txt.foldl parseTXTStep []
    if m = [] then (joined, none) else (joined, some m)

/-- The attribute-mapping read used to state properties of `parseTXT`. -/
def txtLookup (txt : List String) (k : String) : Option String :=
  match (parseTXT txt).2 with
  | none => none
  | some m => mapLookup m k

/-- Go `buildOutputLine` (src/service.go lines 20 to 41): append a part for
each selected field in the source's fixed order, join with one space.  The
Go `map[string]struct{}` of selected names is modelled by the list it was
built from, used only through membership. -/
def buildOutputLine (selectedFields : List String) (seq : Int)
    (serviceName host addr : String) (port : Int) (txt : String) : String :=
  let parts : List String := []
  let parts := if setMember selectedFields "count" then parts ++ [toString seq] else parts
  let parts := if setMember selectedFields "service" then parts ++ [serviceName] else parts
  let parts := if setMember selectedFields "hostname" then parts ++ [host] else parts
  let parts := if setMember selectedFields "address" then parts ++ [addr] else parts
  let parts := if setMember selectedFields "port" then parts ++ [toString port] else parts
  let parts := if setMember selectedFields "text" && !(txt == "") then parts ++ [txt] else parts
  String.intercalate " " parts

/-- The default field list of src/service.go line 47. -/
def defaultOutputFields : List String :=
  ["count", "service", "hostname", "address", "port", "text"]

/-- Go `strings.TrimSpace`: remove the whitespace characters at both ends,
written on the character list so it computes by structural recursion. -/
def trimSpace (s : String) : String :=
  ⟨((s.data.dropWhile Char.isWhitespace).reverse.dropWhile Char.isWhitespace).reverse⟩

/-- Loop body of the first pass of `normalizeOutputFields` (src/service.go
lines 50 to 59): trim, skip the blank, skip the duplicate, add to the
selected set. -/
def selectStep (sel : List String) (f : String) : List String :=
  let f := trimSpace f
  if f = "" then sel
  else if setMember sel f then sel
  else setInsert sel f

/-- First pass of `normalizeOutputFields` (src/service.go lines 49 to 59). -/
def selectPass (fields : List String) : List String :=
  fields.foldl selectStep []

/-- Loop body of the second pass of `normalizeOutputFields` (src/service.go
lines 62 to 74): the accumulator is the ordered slice and the seen set. -/
def orderStep (selected : List String) (acc : List String × List String) (f : String) :
    List String × List String :=
  let f := trimSpace f
  if f = "" then acc
  else if setMember acc.2 f then acc
  else if setMember selected f then (acc.1 ++ [f], setInsert acc.2 f)
  else acc

/-- Second pass of `normalizeOutputFields` (src/service.go lines 60 to 74):
rebuild the ordered unique slice, keeping a name only when it is in the
selected set and not yet seen. -/
def orderPass (selected : List String) (fields : List String) : List String :=
  (fields.foldl (orderStep selected) ([], [])).1

/-- Go `normalizeOutputFields` (src/service.go lines 45 to 76): default the
field list when empty, then the two passes. -/
def normalizeOutputFields (fields : List String) : List String × List String :=
  let fields := if fields = [] then defaultOutputFields else fields
  let selected := selectPass fields
  (orderPass selected fields, selected)

/-- A discovered service instance (src/service.go lines 10 to 17).  The
optional `txtMap` is `none` exactly when the Go field is `nil`. -/
structure Service where
  serviceType : String
  hostname : String
  address : String
  port : Int
  text : String
  txtMap : Option (List (String × String))
  deriving Repr, DecidableEq

/-- The dedup key computed inside the `emit` closure of `discover`
(src/main.go line 689). -/
def workerDedupKey (host addr : String) (port : Int) : String :=
  buildKey host addr port

/-- The dedup key computed in the aggregation loop of `main`
(src/main.go line 1062). -/
def globalDedupKey (s : Service) : String :=
  buildKey s.hostname s.address s.port

/-- A raw entry of the zeroconf resolver stream: host name, IPv4 and IPv6
literals, port, raw TXT strings. -/
structure RawEntry where
  hostName : String
  addrIPv4 : List String
  addrIPv6 : List String
  port : Int
  text : List String

/-- How the select loop of `discover` was left: the context deadline fired,
the context was finished some other way, or the entry channel closed. -/
inductive Terminator where
  | deadlineExceeded
  | ctxDoneOther
  | channelClosed
  deriving Repr, DecidableEq

/-- The error classes of `discover`: the three sentinel errors of
src/main.go lines 611 to 615 plus a class for any other error. -/
inductive DiscError where
  | resolverInit
  | browseFailed
  | timedOutZero
  | other
  deriving Repr, DecidableEq

/-- The mutable state of the select loop of `discover`: the running result
counter, the seen-key set and the collected batch. -/
structure DiscoverState where
  nresults : Nat
  seen : List String
  collected : List Service
  deriving Repr

def initDiscoverState : DiscoverState := ⟨0, [], []⟩

/-- The `emit` closure of `discover` (src/main.go lines 688 to 700): skip an
already-seen key, otherwise record the key, bump the counter and append the
service record (the printed line is presentation, not state). -/
def emit (name : String) (st : DiscoverState) (host addr : String) (port : Int)
    (joinedTXT : String) : DiscoverState :=
  let key := workerDedupKey host addr port
  if setMember st.seen key then st
  else
    { nresults := st.nresults + 1
      seen := setInsert st.seen key
      collected := st.collected ++
        [{ serviceType := name, hostname := host, address := addr, port := port,
           text := joinedTXT, txtMap := none }] }

/-- Overwrite the TXT mapping of the last collected record, as the
assignment `collected[len(collected)-1].TxtMap = txtMap` does. -/
def setLastTxtMap : List Service → List (String × String) → List Service
  | [], _ => []
  | [s], m => [{ s with txtMap := some m }]
  | s :: s₂ :: rest, m => s :: setLastTxtMap (s₂ :: rest) m

/-- One address iteration of the entry handler (src/main.go lines 705 to
717): `emit`, then, when the parsed TXT mapping is non-empty, patch it onto
the last collected record. -/
def emitWithTxt (name : String) (st : DiscoverState) (host addr : String) (port : Int)
    (joinedTXT : String) (txtMap : Option (List (String × String))) : DiscoverState :=
  let st := emit name st host addr port joinedTXT
  match txtMap with
  | none => st
  | some m => { st with collected := setLastTxtMap st.collected m }

/-- Handling of one received entry (src/main.go lines 702 to 717): parse the
TXT records once, then emit one record per IPv4 address and then per IPv6
address. -/
def processEntry (name : String) (st : DiscoverState) (e : RawEntry) : DiscoverState :=
  let parsed := parseTXT e.text
  let st := e.addrIPv4.foldl
    (fun st addr => emitWithTxt name st e.hostName addr e.port parsed.1 parsed.2) st
  e.addrIPv6.foldl
    (fun st addr => emitWithTxt name st e.hostName addr e.port parsed.1 parsed.2) st

/-- The select loop of `discover` (src/main.go lines 666 to 719): consume
the stream, then classify by the terminator; a deadline expiry with an empty
batch is the `errTimedOutZero` return of lines 676 to 678, every other way
out returns the batch with no error. -/
def discoverLoop (name : String) (es : List RawEntry) (t : Terminator) :
    List Service × Option DiscError :=
  let st := es.foldl (processEntry name) initDiscoverState
  match t with
  | .deadlineExceeded =>
      if st.collected = [] then (st.collected, some .timedOutZero) else (st.collected, none)
  | .ctxDoneOther => (st.collected, none)
  | .channelClosed => (st.collected, none)

/-- What the external resolver did for one query: initialization failed
(src/main.go lines 640 to 643), the browse call failed (lines 659 to 661),
or it produced a stream of entries ended by a terminator. -/
inductive ResolverOutcome where
  | initFailed
  | browseFailed
  | stream (entries : List RawEntry) (t : Terminator)

/-- Go `discover` (src/main.go lines 634 to 720) as a function of the
resolver's behaviour. -/
def discover (name : String) (r : ResolverOutcome) : List Service × Option DiscError :=
  match r with
  | .initFailed => ([], some .resolverInit)
  | .browseFailed => ([], some .browseFailed)
  | .stream es t => discoverLoop name es t

/-- Exit codes of src/main.go lines 601 to 608. -/
def exitOK : Nat := 0
def exitErr : Nat := 1
def exitUsage : Nat := 2
def exitResolveInit : Nat := 3
def exitBrowseFail : Nat := 4
def exitTimeoutZero : Nat := 5

/-- The exit-code classification of src/main.go lines 1019 to 1026: start
from the generic runtime code, replace it for each recognized sentinel. -/
def classifyExit (e : DiscError) : Nat :=
  match e with
  | .resolverInit => exitResolveInit
  | .browseFailed => exitBrowseFail
  | .timedOutZero => exitTimeoutZero
  | .other => exitErr

/-- Outcome of the single-service branch of `main`: either the process exits
with a classified code, or the run proceeds with the results. -/
inductive SingleOutcome where
  | exitWith (code : Nat)
  | proceed (results : List Service)
  deriving Repr, DecidableEq

/-- The single-service branch of `main` (src/main.go lines 1014 to 1029):
an error exits with its classified code, success appends the results and
continues. -/
def runSingle (r : List Service × Option DiscError) : SingleOutcome :=
  match r.2 with
  | some e => .exitWith (classifyExit e)
  | none => .proceed r.1

/-- The single-service run end to end: one `discover` call, then the exit
classification. -/
def runSingleService (name : String) (r : ResolverOutcome) : SingleOutcome :=
  runSingle (discover name r)

/-- A worker result posted on the fan-in channel (the `batch` struct of
src/main.go lines 1031 to 1035). -/
structure Batch where
  name : String
  services : List Service
  err : Option DiscError

/-- The assignment `srv.ServiceType = b.name` of src/main.go line 1072. -/
def tagService (name : String) (s : Service) : Service :=
  { s with serviceType := name }

/-- The inner loop of the aggregator (src/main.go lines 1061 to 1074): for
each service of a batch, compute the global key, skip when seen, otherwise
record the key, bump the count, tag the record and append it. -/
def aggServices (name : String) (seen : List String) (count : Nat) (disc : List Service) :
    List Service → List String × Nat × List Service
  | [] => (seen, count, disc)
  | srv :: rest =>
      let key := globalDedupKey srv
      if setMember seen key then aggServices name seen count disc rest
      else aggServices name (setInsert seen key) (count + 1) (disc ++ [tagService name srv]) rest

/-- The fan-in loop of the aggregator (src/main.go lines 1056 to 1075): a
batch with an error is only warned about and skipped, the rest feed the
inner loop. -/
def aggBatches (seen : List String) (count : Nat) (disc : List Service) :
    List Batch → List Service
  | [] => disc
  | b :: rest =>
      if b.err.isSome then aggBatches seen count disc rest
      else
        let r := aggServices b.name seen count disc b.services
        aggBatches r.1 r.2.1 r.2.2 rest

/-- The whole aggregation over the batches in their arrival order. -/
def aggregate (batches : List Batch) : List Service :=
  aggBatches [] 0 [] batches

/-- Run-level error taxonomy.  Modelled from the spec: section 7 names a
fatal `NoServicesConfigured` error for an empty catalog; the Go sources
define no such error value, so this type exists only to state that part of
the spec against the code. -/
inductive RunError where
  | noServicesConfigured
  | runtime
  deriving Repr, DecidableEq

/-- The multi-service branch of `main` (src/main.go lines 1030 to 1076): one
worker per catalog entry, results aggregated; the branch contains no fatal
return at all, which the constant `none` error component records. -/
def multiRun (catalog : List String) (env : String → ResolverOutcome) :
    List Service × Option RunError :=
  (aggregate (catalog.map fun s =>
    let r := discover s (env s)
    { name := s, services := r.1, err := r.2 }), none)

/-- Number of resolver initializations a run performs: each launched worker
calls `zeroconf.NewResolver` exactly once (src/main.go line 640), one worker
per catalog entry. -/
def resolverInvocations (catalog : List String) : Nat := catalog.length

/-- The concurrency limit default (src/main.go line 618). -/
def maxConcurrentDiscover : Nat := 10

/-- Scheduling state of the fan-out (src/main.go lines 1037 to 1050): how
many worker goroutines are blocked sending into the semaphore channel, how
many hold a slot and run `discover`, and how many have finished. -/
structure SchedState where
  pending : Nat
  running : Nat
  done : Nat
  deriving Repr, DecidableEq

/-- The two state changes of the semaphore discipline: a pending worker
acquires a slot only while fewer than `cap` run, and a running worker
finishes, releasing its slot. -/
inductive SchedStep (cap : Nat) : SchedState → SchedState → Prop where
  | acquire (st : SchedState) (hp : 0 < st.pending) (hr : st.running < cap) :
      SchedStep cap st ⟨st.pending - 1, st.running + 1, st.done⟩
  | finish (st : SchedState) (hr : 0 < st.running) :
      SchedStep cap st ⟨st.pending, st.running - 1, st.done + 1⟩

/-- States reachable from the launch of `n` workers, none yet holding a
slot. -/
inductive SchedReachable (cap n : Nat) : SchedState → Prop where
  | init : SchedReachable cap n ⟨n, 0, 0⟩
  | step {st st₂ : SchedState} :
      SchedReachable cap n st → SchedStep cap st st₂ → SchedReachable cap n st₂

/-- The fixed rendering order the spec states for the line renderer. -/
def canonicalFieldOrder : List String :=
  ["count", "service", "hostname", "address", "port", "text"]

/-- Modelled from the spec, section 4.5: the value a field name contributes
to a rendered line, `none` for the empty text field and for unknown names. -/
def fieldValue (seq : Int) (serviceName host addr : String) (port : Int) (txt : String)
    (f : String) : Option String :=
  if f = "count" then some (toString seq)
  else if f = "service" then some serviceName
  else if f = "hostname" then some host
  else if f = "address" then some addr
  else if f = "port" then some (toString port)
  else if f = "text" then (if txt = "" then none else some txt)
  else none

/-- Modelled from the spec, section 4.5: emit only the selected fields,
space-joined, in the fixed canonical order. -/
def renderLineSpec (selectedFields : List String) (seq : Int)
    (serviceName host addr : String) (port : Int) (txt : String) : String :=
  String.intercalate " "
    (canonicalFieldOrder.filterMap fun f =>
      if setMember selectedFields f then fieldValue seq serviceName host addr port txt f
      else none)

/-- First-seen deduplication of a list of names, with the seen set carried
explicitly. -/
def dedupFirstAux (seen : List String) : List String → List String
  | [] => []
  | f :: rest =>
      if setMember seen f then dedupFirstAux seen rest
      else f :: dedupFirstAux (setInsert seen f) rest

/-- First-seen deduplication of a list of names. -/
def dedupFirst (l : List String) : List String := dedupFirstAux [] l

/-- The trimmed, non-blank field names, in order: what remains of a
requested field list once whitespace-only entries are dropped. -/
def cleanFields (l : List String) : List String :=
  (l.map trimSpace).filter fun f => !(f == "")

/-- First-seen deduplication of service records by their global key,
returning the final seen set and the surviving records. -/
def dedupServicesAux (seen : List String) : List Service → List String × List Service
  | [] => (seen, [])
  | s :: rest =>
      let k := globalDedupKey s
      if setMember seen k then dedupServicesAux seen rest
      else
        let r := dedupServicesAux (setInsert seen k) rest
        (r.1, s :: r.2)

/-- The services the aggregator is offered, in order: every batch without an
error contributes its records tagged with the batch's service type. -/
def flattenOK (batches : List Batch) : List Service :=
  (batches.filter fun b => b.err = none).flatMap fun b => b.services.map (tagService b.name)

/-! Helper lemmas about the set and map embeddings. -/

theorem setMember_iff (s : List String) (k : String) : setMember s k = true ↔ k ∈ s := by
  simp [setMember]

theorem mem_setInsert_self (s : List String) (k : String) : k ∈ setInsert s k := by
  unfold setInsert
  cases hc : s.contains k with
  | false => simp [hc]
  | true =>
      simp only [hc, if_true]
      simp at hc
      exact hc

theorem mem_setInsert_of_mem (s : List String) (a k : String) (h : a ∈ s) :
    a ∈ setInsert s k := by
  unfold setInsert
  cases hc : s.contains k with
  | false => simp [hc, h]
  | true => simp [hc, h]

theorem setMember_setInsert_self (s : List String) (k : String) :
    setMember (setInsert s k) k = true :=
  (setMember_iff _ _).mpr (mem_setInsert_self s k)

theorem setInsert_idem (s : List String) (k : String) :
    setInsert (setInsert s k) k = setInsert s k := by
  unfold setInsert
  cases hc : s.contains k with
  | true => simp only [hc, if_true]
  | false => simp [hc]

theorem mem_mapInsert (m : List (String × String)) (k v : String)
    (p : String × String) (h : p ∈ mapInsert m k v) : p = (k, v) ∨ p ∈ m := by
  induction m with
  | nil => simpa [mapInsert] using h
  | cons q rest ih =>
      unfold mapInsert at h
      by_cases hk : q.1 = k
      · simp [hk] at h
        rcases h with h | h
        · exact Or.inl h
        · exact Or.inr (List.mem_cons_of_mem _ h)
      · simp [hk] at h
        rcases h with h | h
        · exact Or.inr (by simp [h])
        · rcases ih h with h₂ | h₂
          · exact Or.inl h₂
          · exact Or.inr (List.mem_cons_of_mem _ h₂)

theorem mapLookup_mapInsert_self (m : List (String × String)) (k v : String) :
    mapLookup (mapInsert m k v) k = some v := by
  induction m with
  | nil => simp [mapInsert, mapLookup]
  | cons q rest ih =>
      unfold mapInsert
      by_cases hk : q.1 = k
      · simp [hk, mapLookup]
      · simp [hk, mapLookup, ih]

theorem mapLookup_mapInsert_ne (m : List (String × String)) (k k₂ v : String)
    (h : k₂ ≠ k) : mapLookup (mapInsert m k₂ v) k = mapLookup m k := by
  induction m with
  | nil => simp [mapInsert, mapLookup, h]
  | cons q rest ih =>
      unfold mapInsert
      by_cases hk : q.1 = k₂
      · simp [hk, mapLookup, h]
      · simp [hk, mapLookup, ih]

theorem mapLookup_mem (m : List (String × String)) (k v : String)
    (h : mapLookup m k = some v) : (k, v) ∈ m := by
  induction m with
  | nil => simp [mapLookup] at h
  | cons q rest ih =>
      obtain ⟨qk, qv⟩ := q
      unfold mapLookup at h
      by_cases hk : qk = k
      · simp [hk] at h
        subst hk
        subst h
        exact List.mem_cons_self _ _
      · simp [hk] at h
        exact List.mem_cons_of_mem _ (ih h)

theorem mapLookup_isSome_mapInsert (m : List (String × String)) (k k₂ v : String)
    (h : (mapLookup m k).isSome = true) :
    (mapLookup (mapInsert m k₂ v) k).isSome = true := by
  by_cases hk : k₂ = k
  · subst hk
    simp [mapLookup_mapInsert_self]
  · simpa [mapLookup_mapInsert_ne m k k₂ v hk] using h

/-! Helper lemmas about splitting on the first equals sign. -/

theorem splitEqChars_eq (cs : List Char) :
    ∀ a b, splitEqChars cs = some (a, b) → cs = a ++ '=' :: b := by
  induction cs with
  | nil => intro a b h; simp [splitEqChars] at h
  | cons c rest ih =>
      intro a b h
      unfold splitEqChars at h
      by_cases hc : c = '='
      · rw [if_pos hc] at h
        simp only [Option.some.injEq, Prod.mk.injEq] at h
        obtain ⟨ha, hb⟩ := h
        subst_vars
        rfl
      · rw [if_neg hc] at h
        cases hrec : splitEqChars rest with
        | none => rw [hrec] at h; simp at h
        | some p =>
            obtain ⟨p₁, p₂⟩ := p
            rw [hrec] at h
            change some (c :: p₁, p₂) = some (a, b) at h
            simp only [Option.some.injEq, Prod.mk.injEq] at h
            obtain ⟨ha, hb⟩ := h
            subst_vars
            have hrest := ih p₁ p₂ hrec
            simp [hrest]

theorem splitFirstEq_eq (raw k v : String) (h : splitFirstEq raw = some (k, v)) :
    raw = k ++ "=" ++ v := by
  unfold splitFirstEq at h
  cases hs : splitEqChars raw.data with
  | none => rw [hs] at h; simp at h
  | some p =>
      obtain ⟨p₁, p₂⟩ := p
      rw [hs] at h
      change some ((⟨p₁⟩ : String), (⟨p₂⟩ : String)) = some (k, v) at h
      simp only [Option.some.injEq, Prod.mk.injEq] at h
      obtain ⟨hk, hv⟩ := h
      have hd : raw.data = p₁ ++ '=' :: p₂ := splitEqChars_eq raw.data p₁ p₂ hs
      apply String.ext
      rw [String.data_append, String.data_append]
      rw [← hk, ← hv]
      simpa using hd

theorem splitFirstEq_ne_empty (raw : String) (p : String × String)
    (h : splitFirstEq raw = some p) : raw ≠ "" := by
  intro he
  subst he
  simp [splitFirstEq, splitEqChars] at h

/-! Helper lemmas about the TXT-parsing fold. -/

theorem foldTXT_mem (l : List String) :
    ∀ m₀ : List (String × String), ∀ p ∈ l.foldl parseTXTStep m₀,
      p ∈ m₀ ∨ (p.1 ≠ "" ∧ ∃ raw ∈ l, splitFirstEq raw = some p) := by
  induction l with
  | nil => intro m₀ p hp; exact Or.inl hp
  | cons raw rest ih =>
      intro m₀ p hp
      have hstep := ih (parseTXTStep m₀ raw) p hp
      rcases hstep with hstep | hstep
      · unfold parseTXTStep at hstep
        by_cases hraw : raw = ""
        · rw [if_pos hraw] at hstep
          exact Or.inl hstep
        · rw [if_neg hraw] at hstep
          cases hs : splitFirstEq raw with
          | none => rw [hs] at hstep; exact Or.inl hstep
          | some q =>
              obtain ⟨qk, qv⟩ := q
              rw [hs] at hstep
              change p ∈ (if qk = "" then m₀ else mapInsert m₀ qk qv) at hstep
              by_cases hq : qk = ""
              · rw [if_pos hq] at hstep
                exact Or.inl hstep
              · rw [if_neg hq] at hstep
                rcases mem_mapInsert m₀ qk qv p hstep with hp₂ | hp₂
                · subst hp₂
                  exact Or.inr ⟨hq, raw, List.mem_cons_self _ _, hs⟩
                · exact Or.inl hp₂
      · exact Or.inr ⟨hstep.1, hstep.2.choose,
          List.mem_cons_of_mem _ hstep.2.choose_spec.1, hstep.2.choose_spec.2⟩

theorem foldTXT_isSome_mono (l : List String) :
    ∀ m₀ : List (String × String), ∀ k : String, (mapLookup m₀ k).isSome = true →
      (mapLookup (l.foldl parseTXTStep m₀) k).isSome = true := by
  induction l with
  | nil => intro m₀ k h; exact h
  | cons raw rest ih =>
      intro m₀ k h
      apply ih
      unfold parseTXTStep
      by_cases hraw : raw = ""
      · rw [if_pos hraw]; exact h
      · rw [if_neg hraw]
        cases hs : splitFirstEq raw with
        | none => exact h
        | some q =>
            obtain ⟨qk, qv⟩ := q
            show (mapLookup (if qk = "" then m₀ else mapInsert m₀ qk qv) k).isSome = true
            by_cases hq : qk = ""
            · rw [if_pos hq]; exact h
            · rw [if_neg hq]
              exact mapLookup_isSome_mapInsert m₀ k qk qv h

theorem foldTXT_complete (l : List String) :
    ∀ m₀ : List (String × String), ∀ raw ∈ l, ∀ k v : String,
      splitFirstEq raw = some (k, v) → k ≠ "" →
      (mapLookup (l.foldl parseTXTStep m₀) k).isSome = true := by
  induction l with
  | nil => intro m₀ raw hraw; simp at hraw
  | cons r rest ih =>
      intro m₀ raw hraw k v hs hk
      rcases List.mem_cons.mp hraw with hraw | hraw
      · subst hraw
        rw [List.foldl_cons]
        apply foldTXT_isSome_mono rest
        unfold parseTXTStep
        rw [if_neg (splitFirstEq_ne_empty raw (k, v) hs), hs]
        show (mapLookup (if k = "" then m₀ else mapInsert m₀ k v) k).isSome = true
        rw [if_neg hk]
        simp [mapLookup_mapInsert_self]
      · exact ih (parseTXTStep m₀ r) raw hraw k v hs hk

theorem foldTXT_nil_of_no_keys (l : List String) :
    ∀ m₀ : List (String × String),
      (∀ raw ∈ l, ∀ k v : String, splitFirstEq raw = some (k, v) → k = "") →
      l.foldl parseTXTStep m₀ = m₀ := by
  induction l with
  | nil => intro m₀ _; rfl
  | cons raw rest ih =>
      intro m₀ hnone
      have hstep : parseTXTStep m₀ raw = m₀ := by
        unfold parseTXTStep
        by_cases hraw : raw = ""
        · rw [if_pos hraw]
        · rw [if_neg hraw]
          cases hs : splitFirstEq raw with
          | none => rfl
          | some q =>
              obtain ⟨qk, qv⟩ := q
              have hz := hnone raw (List.mem_cons_self _ _) qk qv hs
              show (if qk = "" then m₀ else mapInsert m₀ qk qv) = m₀
              rw [if_pos hz]
      rw [List.foldl_cons, hstep]
      exact ih m₀ fun r hr => hnone r (List.mem_cons_of_mem _ hr)

theorem parseTXT_snd_some (txt : List String) (m : List (String × String))
    (h : (parseTXT txt).2 = some m) :
    m = txt.foldl parseTXTStep [] ∧ m ≠ [] := by
  unfold parseTXT at h
  by_cases h₁ : txt = []
  · rw [if_pos h₁] at h; simp at h
  · rw [if_neg h₁] at h
    by_cases h₂ : txt.foldl parseTXTStep [] = []
    · simp [h₂] at h
    · simp [h₂] at h
      exact ⟨h.symm, fun hn => h₂ (h.trans hn)⟩

theorem parseTXT_snd_of_ne (txt : List String) (h₁ : txt ≠ [])
    (h₂ : txt.foldl parseTXTStep [] ≠ []) :
    (parseTXT txt).2 = some (txt.foldl parseTXTStep []) := by
  unfold parseTXT
  rw [if_neg h₁]
  simp [h₂]

/-- C4: for every raw TXT list, `parseTXT` joins the segments with `;` in
original order; every mapping entry comes from a segment that is literally
key, `=`, value; every segment whose part before the first `=` is non-empty
puts its key into the mapping; and the concrete scenario of the spec holds.
Segments without `=` are excluded from the mapping (the soundness conjunct:
an entry's segment always contains `=`) yet retained in the joined string. -/
theorem parseTXT_join_and_mapping (txt : List String) :
    (parseTXT txt).1 = String.intercalate ";" txt
    ∧ (∀ k v : String, txtLookup txt k = some v → ∃ raw ∈ txt, raw = k ++ "=" ++ v)
    ∧ (∀ raw ∈ txt, ∀ k v : String, splitFirstEq raw = some (k, v) → k ≠ "" →
        (txtLookup txt k).isSome = true)
    ∧ parseTXT ["fv=p20.1", "junk"] = ("fv=p20.1;junk", some [("fv", "p20.1")]) := by
  refine ⟨?_, ?_, ?_, by decide⟩
  · unfold parseTXT
    by_cases h₁ : txt = []
    · rw [if_pos h₁]; subst h₁; rfl
    · rw [if_neg h₁]
      by_cases h₂ : txt.foldl parseTXTStep [] = [] <;> simp [h₂]
  · intro k v h
    unfold txtLookup at h
    cases hsnd : (parseTXT txt).2 with
    | none => rw [hsnd] at h; simp at h
    | some m =>
        rw [hsnd] at h
        obtain ⟨hm, -⟩ := parseTXT_snd_some txt m hsnd
        have hmem := mapLookup_mem m k v h
        rw [hm] at hmem
        rcases foldTXT_mem txt [] (k, v) hmem with h₂ | h₂
        · simp at h₂
        · obtain ⟨-, raw, hraw, hsplit⟩ := h₂
          exact ⟨raw, hraw, splitFirstEq_eq raw k v hsplit⟩
  · intro raw hraw k v hs hk
    have hres := foldTXT_complete txt [] raw hraw k v hs hk
    have h₂ : txt.foldl parseTXTStep [] ≠ [] := by
      intro hnil
      rw [hnil] at hres
      simp [mapLookup] at hres
    have h₁ : txt ≠ [] := by
      intro hnil
      subst hnil
      simp at hraw
    unfold txtLookup
    rw [parseTXT_snd_of_ne txt h₁ h₂]
    exact hres

/-- C10: the TXT attribute mapping never holds an empty key: the mapping is
absent exactly when no segment splits on its first `=` into a non-empty key
and a value, and a present mapping is non-empty with all keys non-empty; a
segment that is empty or begins with `=` yields an empty split key, so it
contributes nothing, as the two concrete cases also show. -/
theorem parseTXT_no_empty_key (txt : List String) :
    ((parseTXT txt).2 = none ↔
        ∀ raw ∈ txt, ∀ k v : String, splitFirstEq raw = some (k, v) → k = "")
    ∧ (∀ m, (parseTXT txt).2 = some m → m ≠ [] ∧ ∀ p ∈ m, p.1 ≠ "")
    ∧ (∀ cs : List Char, ∀ k v : String,
        splitFirstEq ⟨'=' :: cs⟩ = some (k, v) → k = "")
    ∧ (parseTXT [""]).2 = none
    ∧ (parseTXT ["=fv"]).2 = none := by
  refine ⟨⟨?_, ?_⟩, ?_, ?_, by decide, by decide⟩
  · intro hnone raw hraw k v hs
    by_contra hk
    have hres := foldTXT_complete txt [] raw hraw k v hs hk
    have h₂ : txt.foldl parseTXTStep [] ≠ [] := by
      intro hnil
      rw [hnil] at hres
      simp [mapLookup] at hres
    have h₁ : txt ≠ [] := by
      intro hnil
      subst hnil
      simp at hraw
    rw [parseTXT_snd_of_ne txt h₁ h₂] at hnone
    simp at hnone
  · intro hall
    unfold parseTXT
    by_cases h₁ : txt = []
    · rw [if_pos h₁]
    · rw [if_neg h₁]
      rw [foldTXT_nil_of_no_keys txt [] hall]
      simp
  · intro m hm
    obtain ⟨hme, hne⟩ := parseTXT_snd_some txt m hm
    refine ⟨hne, ?_⟩
    intro p hp
    rw [hme] at hp
    rcases foldTXT_mem txt [] p hp with h | h
    · simp at h
    · exact h.1
  · intro cs k v h
    unfold splitFirstEq at h
    have hdata : (⟨'=' :: cs⟩ : String).data = '=' :: cs := rfl
    rw [hdata] at h
    unfold splitEqChars at h
    rw [if_pos rfl] at h
    change some ((⟨[]⟩ : String), (⟨cs⟩ : String)) = some (k, v) at h
    simp only [Option.some.injEq, Prod.mk.injEq] at h
    obtain ⟨hk, -⟩ := h
    rw [← hk]

/-- C7: the deduplication key is the literal pipe-delimited concatenation of
hostname, address and decimal port, and the very same `buildKey` is the key
function of both the per-worker dedup set (the `emit` closure) and the
run-wide dedup set (the aggregation loop). -/
theorem buildKey_literal_and_shared :
    (∀ (host addr : String) (port : Int),
        buildKey host addr port = host ++ "|" ++ addr ++ "|" ++ toString port)
    ∧ (∀ (host addr : String) (port : Int),
        workerDedupKey host addr port = buildKey host addr port)
    ∧ (∀ s : Service, globalDedupKey s = buildKey s.hostname s.address s.port)
    ∧ buildKey "host.local." "10.0.0.5" 22 = "host.local.|10.0.0.5|22" :=
  ⟨fun _ _ _ => rfl, fun _ _ _ => rfl, fun _ => rfl, by decide⟩

/-! Helper lemmas for the line renderer and field normalization. -/

theorem buildOutputLine_eq_render (sel : List String) (seq : Int)
    (svc host addr : String) (port : Int) (txt : String) :
    buildOutputLine sel seq svc host addr port txt
      = renderLineSpec sel seq svc host addr port txt := by
  unfold buildOutputLine renderLineSpec canonicalFieldOrder fieldValue
  by_cases h₁ : setMember sel "count" = true <;>
  by_cases h₂ : setMember sel "service" = true <;>
  by_cases h₃ : setMember sel "hostname" = true <;>
  by_cases h₄ : setMember sel "address" = true <;>
  by_cases h₅ : setMember sel "port" = true <;>
  by_cases h₆ : setMember sel "text" = true <;>
  by_cases h₇ : txt = "" <;>
  simp [h₁, h₂, h₃, h₄, h₅, h₆, h₇, List.filterMap_cons]

theorem setMember_append_single_ne (sel : List String) (u x : String) (h : x ≠ u) :
    setMember (sel ++ [u]) x = setMember sel x := by
  simp [setMember, h]

theorem cleanFields_cons_blank (f : String) (rest : List String) (h : (trimSpace f) = "") :
    cleanFields (f :: rest) = cleanFields rest := by
  simp [cleanFields, h]

theorem cleanFields_cons_keep (f : String) (rest : List String) (h : (trimSpace f) ≠ "") :
    cleanFields (f :: rest) = (trimSpace f) :: cleanFields rest := by
  simp [cleanFields, h]

theorem selectPass_go (fields : List String) :
    ∀ sel : List String,
      fields.foldl selectStep sel = sel ++ dedupFirstAux sel (cleanFields fields) := by
  induction fields with
  | nil => intro sel; simp [cleanFields, dedupFirstAux]
  | cons f rest ih =>
      intro sel
      rw [List.foldl_cons]
      by_cases hf : (trimSpace f) = ""
      · rw [cleanFields_cons_blank f rest hf]
        have hstep : selectStep sel f = sel := by simp [selectStep, hf]
        rw [hstep]
        exact ih sel
      · rw [cleanFields_cons_keep f rest hf]
        by_cases hm : setMember sel (trimSpace f) = true
        · have hstep : selectStep sel f = sel := by simp [selectStep, hf, hm]
          rw [hstep]
          show rest.foldl selectStep sel
            = sel ++ (if setMember sel (trimSpace f) then dedupFirstAux sel (cleanFields rest)
                      else (trimSpace f) :: dedupFirstAux (setInsert sel (trimSpace f)) (cleanFields rest))
          rw [if_pos hm]
          exact ih sel
        · have hstep : selectStep sel f = setInsert sel (trimSpace f) := by
            simp [selectStep, hf, hm]
          rw [hstep, ih (setInsert sel (trimSpace f))]
          show setInsert sel (trimSpace f) ++ dedupFirstAux (setInsert sel (trimSpace f)) (cleanFields rest)
            = sel ++ (if setMember sel (trimSpace f) then dedupFirstAux sel (cleanFields rest)
                      else (trimSpace f) :: dedupFirstAux (setInsert sel (trimSpace f)) (cleanFields rest))
          rw [if_neg hm]
          have hins : setInsert sel (trimSpace f) = sel ++ [(trimSpace f)] := by
            unfold setInsert setMember at *
            rw [if_neg hm]
          rw [hins]
          simp

theorem mem_dedupFirstAux (l : List String) :
    ∀ (seen : List String) (f : String), f ∈ l → f ∈ seen ∨ f ∈ dedupFirstAux seen l := by
  induction l with
  | nil => intro seen f hf; simp at hf
  | cons g rest ih =>
      intro seen f hf
      by_cases hm : setMember seen g = true
      · have hd : dedupFirstAux seen (g :: rest) = dedupFirstAux seen rest := by
          show (if setMember seen g then dedupFirstAux seen rest
                else g :: dedupFirstAux (setInsert seen g) rest) = dedupFirstAux seen rest
          rw [if_pos hm]
        rw [hd]
        rcases List.mem_cons.mp hf with hf | hf
        · subst hf
          exact Or.inl ((setMember_iff seen f).mp hm)
        · exact ih seen f hf
      · have hd : dedupFirstAux seen (g :: rest)
            = g :: dedupFirstAux (setInsert seen g) rest := by
          show (if setMember seen g then dedupFirstAux seen rest
                else g :: dedupFirstAux (setInsert seen g) rest)
            = g :: dedupFirstAux (setInsert seen g) rest
          rw [if_neg hm]
        rw [hd]
        rcases List.mem_cons.mp hf with hf | hf
        · subst hf
          exact Or.inr (List.mem_cons_self _ _)
        · rcases ih (setInsert seen g) f hf with h | h
          · unfold setInsert at h
            by_cases hc : seen.contains g = true
            · rw [if_pos hc] at h
              exact Or.inl h
            · rw [if_neg hc] at h
              rcases List.mem_append.mp h with h | h
              · exact Or.inl h
              · simp at h
                subst h
                exact Or.inr (List.mem_cons_self _ _)
          · exact Or.inr (List.mem_cons_of_mem _ h)

theorem orderPass_go (selected : List String) (fields : List String) :
    ∀ (ordered seen : List String),
      (∀ f ∈ cleanFields fields, setMember selected f = true) →
      (fields.foldl (orderStep selected) (ordered, seen)).1
        = ordered ++ dedupFirstAux seen (cleanFields fields) := by
  induction fields with
  | nil => intro ordered seen _; simp [cleanFields, dedupFirstAux]
  | cons f rest ih =>
      intro ordered seen hsel
      rw [List.foldl_cons]
      by_cases hf : (trimSpace f) = ""
      · rw [cleanFields_cons_blank f rest hf]
        have hstep : orderStep selected (ordered, seen) f = (ordered, seen) := by
          simp [orderStep, hf]
        rw [hstep]
        refine ih ordered seen fun g hg => hsel g ?_
        rw [cleanFields_cons_blank f rest hf]
        exact hg
      · rw [cleanFields_cons_keep f rest hf]
        have hrest : ∀ g ∈ cleanFields rest, setMember selected g = true := by
          intro g hg
          refine hsel g ?_
          rw [cleanFields_cons_keep f rest hf]
          exact List.mem_cons_of_mem _ hg
        by_cases hm : setMember seen (trimSpace f) = true
        · have hstep : orderStep selected (ordered, seen) f = (ordered, seen) := by
            simp [orderStep, hf, hm]
          rw [hstep]
          show (rest.foldl (orderStep selected) (ordered, seen)).1
            = ordered ++ (if setMember seen (trimSpace f) then dedupFirstAux seen (cleanFields rest)
                          else (trimSpace f) :: dedupFirstAux (setInsert seen (trimSpace f)) (cleanFields rest))
          rw [if_pos hm]
          exact ih ordered seen hrest
        · have hin : setMember selected (trimSpace f) = true := by
            refine hsel (trimSpace f) ?_
            rw [cleanFields_cons_keep f rest hf]
            exact List.mem_cons_self _ _
          have hstep : orderStep selected (ordered, seen) f
              = (ordered ++ [(trimSpace f)], setInsert seen (trimSpace f)) := by
            simp [orderStep, hf, hm, hin]
          rw [hstep, ih (ordered ++ [(trimSpace f)]) (setInsert seen (trimSpace f)) hrest]
          show (ordered ++ [(trimSpace f)]) ++ dedupFirstAux (setInsert seen (trimSpace f)) (cleanFields rest)
            = ordered ++ (if setMember seen (trimSpace f) then dedupFirstAux seen (cleanFields rest)
                          else (trimSpace f) :: dedupFirstAux (setInsert seen (trimSpace f)) (cleanFields rest))
          rw [if_neg hm]
          simp

theorem normalizeOutputFields_eq (fields : List String) :
    normalizeOutputFields fields
      = (dedupFirst (cleanFields (if fields = [] then defaultOutputFields else fields)),
         dedupFirst (cleanFields (if fields = [] then defaultOutputFields else fields))) := by
  have hsel : ∀ g : List String, g.foldl selectStep [] = dedupFirst (cleanFields g) := by
    intro g
    rw [selectPass_go g []]
    rfl
  have hmem : ∀ g : List String, ∀ f ∈ cleanFields g,
      setMember (g.foldl selectStep []) f = true := by
    intro g f hf
    rcases mem_dedupFirstAux (cleanFields g) [] f hf with h | h
    · simp at h
    · rw [hsel g]
      exact (setMember_iff _ _).mpr h
  unfold normalizeOutputFields selectPass orderPass
  by_cases hne : fields = []
  · subst hne
    rw [if_pos rfl]
    show ((defaultOutputFields.foldl (orderStep (defaultOutputFields.foldl selectStep []))
            ([], [])).1,
          defaultOutputFields.foldl selectStep [])
        = (dedupFirst (cleanFields defaultOutputFields),
           dedupFirst (cleanFields defaultOutputFields))
    rw [orderPass_go (defaultOutputFields.foldl selectStep []) defaultOutputFields [] []
        (hmem defaultOutputFields), hsel defaultOutputFields]
    simp [dedupFirst]
  · rw [if_neg hne]
    show ((fields.foldl (orderStep (fields.foldl selectStep [])) ([], [])).1,
          fields.foldl selectStep [])
        = (dedupFirst (cleanFields fields), dedupFirst (cleanFields fields))
    rw [orderPass_go (fields.foldl selectStep []) fields [] [] (hmem fields), hsel fields]
    simp [dedupFirst]

/-- C5: the line renderer emits only the selected fields, space-joined, in
the fixed canonical order count, service, hostname, address, port, text;
two selections with the same membership render identically, so the caller's
listing order is irrelevant; the text field is dropped when the joined TXT
string is empty; and selecting hostname and port on a record with non-empty
text renders exactly hostname and port. -/
theorem buildOutputLine_canonical_order :
    (∀ (sel : List String) (seq : Int) (svc host addr : String) (port : Int) (txt : String),
        buildOutputLine sel seq svc host addr port txt
          = renderLineSpec sel seq svc host addr port txt)
    ∧ (∀ (sel sel₂ : List String) (seq : Int) (svc host addr : String) (port : Int)
          (txt : String),
        (∀ f, setMember sel f = setMember sel₂ f) →
        buildOutputLine sel seq svc host addr port txt
          = buildOutputLine sel₂ seq svc host addr port txt)
    ∧ (∀ (sel : List String) (seq : Int) (svc host addr : String) (port : Int),
        buildOutputLine sel seq svc host addr port ""
          = buildOutputLine (sel.filter fun f => !(f == "text")) seq svc host addr port "")
    ∧ buildOutputLine ["hostname", "port"] 7 "_x._tcp" "host.local." "10.0.0.5" 22 "fv=p20.1"
        = "host.local. 22" := by
  refine ⟨buildOutputLine_eq_render, ?_, ?_, by decide⟩
  · intro sel sel₂ seq svc host addr port txt h
    simp only [buildOutputLine, h]
  · intro sel seq svc host addr port
    have hmem : ∀ f, f ≠ "text" →
        setMember (sel.filter fun g => !(g == "text")) f = setMember sel f := by
      intro f hf
      simp [setMember, List.mem_filter, hf]
    simp only [buildOutputLine, hmem "count" (by decide), hmem "service" (by decide),
      hmem "hostname" (by decide), hmem "address" (by decide), hmem "port" (by decide)]
    simp

/-- C6: an empty requested field list yields the default field set; a
non-empty list is trimmed, with blank and duplicate entries dropped and
first-seen order kept (unknown names are retained, nothing is rejected);
the membership set agrees with the ordered list; and a name outside the six
rendered fields never changes a rendered line. -/
theorem normalizeOutputFields_behaviour (fields : List String) :
    normalizeOutputFields [] = (defaultOutputFields, defaultOutputFields)
    ∧ (fields ≠ [] →
        (normalizeOutputFields fields).1 = dedupFirst (cleanFields fields))
    ∧ (normalizeOutputFields fields).2 = (normalizeOutputFields fields).1
    ∧ (normalizeOutputFields ["   ", "port", " port", "bogus"]).1 = ["port", "bogus"]
    ∧ (∀ u, u ∉ canonicalFieldOrder →
        ∀ (sel : List String) (seq : Int) (svc host addr : String) (port : Int)
          (txt : String),
          buildOutputLine (sel ++ [u]) seq svc host addr port txt
            = buildOutputLine sel seq svc host addr port txt) := by
  refine ⟨by decide, ?_, ?_, by decide, ?_⟩
  · intro hne
    rw [normalizeOutputFields_eq]
    simp [hne]
  · rw [normalizeOutputFields_eq]
  · intro u hu sel seq svc host addr port txt
    have hne : ∀ x : String, x ∈ canonicalFieldOrder → x ≠ u := by
      intro x hx he
      exact hu (he ▸ hx)
    simp only [buildOutputLine,
      setMember_append_single_ne sel u "count" (hne "count" (by decide)),
      setMember_append_single_ne sel u "service" (hne "service" (by decide)),
      setMember_append_single_ne sel u "hostname" (hne "hostname" (by decide)),
      setMember_append_single_ne sel u "address" (hne "address" (by decide)),
      setMember_append_single_ne sel u "port" (hne "port" (by decide)),
      setMember_append_single_ne sel u "text" (hne "text" (by decide))]

/-- C1: for a single query, deadline expiry is classified by the emptiness
of the collected batch — the timed-out-with-zero-results error exactly when
the batch is empty, no error otherwise — and a stream that closes before
the deadline always returns the batch with no error; the batch itself does
not depend on how the loop ended, and the timeout classification is not the
generic error class. -/
theorem discover_timeout_classification (name : String) (es : List RawEntry) :
    ((discover name (.stream es .deadlineExceeded)).2
        = if (discover name (.stream es .deadlineExceeded)).1 = []
          then some DiscError.timedOutZero else none)
    ∧ (discover name (.stream es .channelClosed)).2 = none
    ∧ (discover name (.stream es .deadlineExceeded)).1
        = (discover name (.stream es .channelClosed)).1
    ∧ DiscError.timedOutZero ≠ DiscError.other := by
  refine ⟨?_, ?_, ?_, by decide⟩ <;>
    · unfold discover discoverLoop
      by_cases h : (es.foldl (processEntry name) initDiscoverState).collected = [] <;>
        simp [h]

/-! Helper lemmas for the aggregation of worker batches. -/

theorem aggServices_eq (name : String) (srvs : List Service) :
    ∀ (seen : List String) (count : Nat) (disc : List Service),
      aggServices name seen count disc srvs
        = ((dedupServicesAux seen (srvs.map (tagService name))).1,
           count + (dedupServicesAux seen (srvs.map (tagService name))).2.length,
           disc ++ (dedupServicesAux seen (srvs.map (tagService name))).2) := by
  induction srvs with
  | nil => intro seen count disc; simp [aggServices, dedupServicesAux]
  | cons srv rest ih =>
      intro seen count disc
      have hkey : globalDedupKey (tagService name srv) = globalDedupKey srv := rfl
      show (if setMember seen (globalDedupKey srv)
            then aggServices name seen count disc rest
            else aggServices name (setInsert seen (globalDedupKey srv)) (count + 1)
              (disc ++ [tagService name srv]) rest) = _
      by_cases hm : setMember seen (globalDedupKey srv) = true
      · rw [if_pos hm, ih seen count disc]
        have hd : dedupServicesAux seen (tagService name srv :: rest.map (tagService name))
            = dedupServicesAux seen (rest.map (tagService name)) := by
          show (if setMember seen (globalDedupKey (tagService name srv))
                then dedupServicesAux seen (rest.map (tagService name))
                else _) = _
          rw [hkey, if_pos hm]
        simp only [List.map_cons, hd]
      · rw [if_neg hm, ih (setInsert seen (globalDedupKey srv)) (count + 1)
            (disc ++ [tagService name srv])]
        have hd : dedupServicesAux seen (tagService name srv :: rest.map (tagService name))
            = ((dedupServicesAux (setInsert seen (globalDedupKey srv))
                  (rest.map (tagService name))).1,
               tagService name srv ::
                 (dedupServicesAux (setInsert seen (globalDedupKey srv))
                  (rest.map (tagService name))).2) := by
          show (if setMember seen (globalDedupKey (tagService name srv))
                then dedupServicesAux seen (rest.map (tagService name))
                else ((dedupServicesAux (setInsert seen (globalDedupKey (tagService name srv)))
                        (rest.map (tagService name))).1,
                      tagService name srv ::
                        (dedupServicesAux (setInsert seen (globalDedupKey (tagService name srv)))
                          (rest.map (tagService name))).2)) = _
          rw [hkey, if_neg hm]
        simp only [List.map_cons, hd, List.length_cons, Prod.mk.injEq]
        refine ⟨trivial, by omega, by simp⟩

theorem dedupServicesAux_append (l₁ : List Service) :
    ∀ (l₂ : List Service) (seen : List String),
      dedupServicesAux seen (l₁ ++ l₂)
        = ((dedupServicesAux (dedupServicesAux seen l₁).1 l₂).1,
           (dedupServicesAux seen l₁).2
             ++ (dedupServicesAux (dedupServicesAux seen l₁).1 l₂).2) := by
  induction l₁ with
  | nil => intro l₂ seen; simp [dedupServicesAux]
  | cons s rest ih =>
      intro l₂ seen
      show (if setMember seen (globalDedupKey s)
            then dedupServicesAux seen (rest ++ l₂)
            else ((dedupServicesAux (setInsert seen (globalDedupKey s)) (rest ++ l₂)).1,
                  s :: (dedupServicesAux (setInsert seen (globalDedupKey s)) (rest ++ l₂)).2))
          = _
      by_cases hm : setMember seen (globalDedupKey s) = true
      · rw [if_pos hm, ih l₂ seen]
        have hd : dedupServicesAux seen (s :: rest) = dedupServicesAux seen rest := by
          show (if setMember seen (globalDedupKey s) then _ else _) = _
          rw [if_pos hm]
        rw [hd]
      · rw [if_neg hm, ih l₂ (setInsert seen (globalDedupKey s))]
        have hd : dedupServicesAux seen (s :: rest)
            = ((dedupServicesAux (setInsert seen (globalDedupKey s)) rest).1,
               s :: (dedupServicesAux (setInsert seen (globalDedupKey s)) rest).2) := by
          show (if setMember seen (globalDedupKey s) then _ else _) = _
          rw [if_neg hm]
        rw [hd]
        simp

theorem flattenOK_cons (b : Batch) (rest : List Batch) :
    flattenOK (b :: rest)
      = if b.err = none then b.services.map (tagService b.name) ++ flattenOK rest
        else flattenOK rest := by
  by_cases h : b.err = none <;> simp [flattenOK, List.filter_cons, h]

theorem aggBatches_eq (batches : List Batch) :
    ∀ (seen : List String) (count : Nat) (disc : List Service),
      aggBatches seen count disc batches
        = disc ++ (dedupServicesAux seen (flattenOK batches)).2 := by
  induction batches with
  | nil => intro seen count disc; simp [aggBatches, flattenOK, dedupServicesAux]
  | cons b rest ih =>
      intro seen count disc
      rw [flattenOK_cons]
      cases hb : b.err with
      | some e =>
          have hskip : aggBatches seen count disc (b :: rest)
              = aggBatches seen count disc rest := by
            show (if b.err.isSome then _ else _) = _
            rw [hb]
            rfl
          rw [hskip, ih seen count disc]
          simp [hb]
      | none =>
          have hrun : aggBatches seen count disc (b :: rest)
              = (let r := aggServices b.name seen count disc b.services
                 aggBatches r.1 r.2.1 r.2.2 rest) := by
            show (if b.err.isSome then _ else _) = _
            rw [hb]
            rfl
          rw [hrun]
          simp only [aggServices_eq b.name b.services seen count disc]
          rw [ih]
          rw [if_pos trivial, dedupServicesAux_append]
          simp

theorem aggregate_eq (batches : List Batch) :
    aggregate batches = (dedupServicesAux [] (flattenOK batches)).2 := by
  unfold aggregate
  rw [aggBatches_eq batches [] 0 []]
  simp

theorem dedupServicesAux_nodup (l : List Service) :
    ∀ seen : List String,
      List.Nodup ((dedupServicesAux seen l).2.map globalDedupKey)
      ∧ ∀ k ∈ (dedupServicesAux seen l).2.map globalDedupKey, k ∉ seen := by
  induction l with
  | nil => intro seen; simp [dedupServicesAux]
  | cons s rest ih =>
      intro seen
      by_cases hm : setMember seen (globalDedupKey s) = true
      · have hd : dedupServicesAux seen (s :: rest) = dedupServicesAux seen rest := by
          show (if setMember seen (globalDedupKey s) then _ else _) = _
          rw [if_pos hm]
        rw [hd]
        exact ih seen
      · have hd : dedupServicesAux seen (s :: rest)
            = ((dedupServicesAux (setInsert seen (globalDedupKey s)) rest).1,
               s :: (dedupServicesAux (setInsert seen (globalDedupKey s)) rest).2) := by
          show (if setMember seen (globalDedupKey s) then _ else _) = _
          rw [if_neg hm]
        rw [hd]
        obtain ⟨ihn, ihs⟩ := ih (setInsert seen (globalDedupKey s))
        constructor
        · simp only [List.map_cons, List.nodup_cons]
          refine ⟨?_, ihn⟩
          intro hmem
          exact absurd (mem_setInsert_self seen (globalDedupKey s)) (by
            intro hself
            exact (ihs (globalDedupKey s) hmem) hself)
        · intro k hk
          simp only [List.map_cons, List.mem_cons] at hk
          rcases hk with hk | hk
          · subst hk
            intro hks
            exact hm ((setMember_iff seen (globalDedupKey s)).mpr hks)
          · intro hks
            exact (ihs k hk) (mem_setInsert_of_mem seen k (globalDedupKey s) hks)

theorem dedupServicesAux_covers (l : List Service) :
    ∀ (seen : List String), ∀ s ∈ l,
      globalDedupKey s ∈ seen
      ∨ globalDedupKey s ∈ (dedupServicesAux seen l).2.map globalDedupKey := by
  induction l with
  | nil => intro seen s hs; simp at hs
  | cons s₀ rest ih =>
      intro seen s hs
      by_cases hm : setMember seen (globalDedupKey s₀) = true
      · have hd : dedupServicesAux seen (s₀ :: rest) = dedupServicesAux seen rest := by
          show (if setMember seen (globalDedupKey s₀) then _ else _) = _
          rw [if_pos hm]
        rw [hd]
        rcases List.mem_cons.mp hs with hs | hs
        · subst hs
          exact Or.inl ((setMember_iff _ _).mp hm)
        · exact ih seen s hs
      · have hd : dedupServicesAux seen (s₀ :: rest)
            = ((dedupServicesAux (setInsert seen (globalDedupKey s₀)) rest).1,
               s₀ :: (dedupServicesAux (setInsert seen (globalDedupKey s₀)) rest).2) := by
          show (if setMember seen (globalDedupKey s₀) then _ else _) = _
          rw [if_neg hm]
        rw [hd]
        rcases List.mem_cons.mp hs with hs | hs
        · subst hs
          exact Or.inr (by simp)
        · rcases ih (setInsert seen (globalDedupKey s₀)) s hs with h | h
          · unfold setInsert at h
            by_cases hc : seen.contains (globalDedupKey s₀) = true
            · rw [if_pos hc] at h
              exact Or.inl h
            · rw [if_neg hc] at h
              rcases List.mem_append.mp h with h | h
              · exact Or.inl h
              · simp at h
                rw [h]
                exact Or.inr (by simp)
          · exact Or.inr (by simp [h])

theorem dedupServicesAux_find (l : List Service) :
    ∀ (seen : List String) (k : String), k ∉ seen →
      (dedupServicesAux seen l).2.find? (fun s => globalDedupKey s == k)
        = l.find? (fun s => globalDedupKey s == k) := by
  induction l with
  | nil => intro seen k _; simp [dedupServicesAux]
  | cons s rest ih =>
      intro seen k hk
      by_cases hm : setMember seen (globalDedupKey s) = true
      · have hd : dedupServicesAux seen (s :: rest) = dedupServicesAux seen rest := by
          show (if setMember seen (globalDedupKey s) then _ else _) = _
          rw [if_pos hm]
        rw [hd]
        have hne : (globalDedupKey s == k) = false := by
          apply beq_false_of_ne
          intro he
          exact hk (he ▸ (setMember_iff _ _).mp hm)
        rw [@List.find?_cons_of_neg _ (fun t => globalDedupKey t == k) s rest
          (by simp [hne]), ih seen k hk]
      · have hd : dedupServicesAux seen (s :: rest)
            = ((dedupServicesAux (setInsert seen (globalDedupKey s)) rest).1,
               s :: (dedupServicesAux (setInsert seen (globalDedupKey s)) rest).2) := by
          show (if setMember seen (globalDedupKey s) then _ else _) = _
          rw [if_neg hm]
        rw [hd]
        dsimp only
        cases hbeq : (globalDedupKey s == k) with
        | true =>
            rw [@List.find?_cons_of_pos _ (fun t => globalDedupKey t == k) s
                ((dedupServicesAux (setInsert seen (globalDedupKey s)) rest).2)
                (by simpa using hbeq),
              @List.find?_cons_of_pos _ (fun t => globalDedupKey t == k) s rest
                (by simpa using hbeq)]
        | false =>
            rw [@List.find?_cons_of_neg _ (fun t => globalDedupKey t == k) s
                ((dedupServicesAux (setInsert seen (globalDedupKey s)) rest).2)
                (by simp [hbeq]),
              @List.find?_cons_of_neg _ (fun t => globalDedupKey t == k) s rest
                (by simp [hbeq])]
            apply ih
            intro hmem
            have hne : k ≠ globalDedupKey s := fun he => by
              rw [he] at hbeq
              simp at hbeq
            unfold setInsert at hmem
            by_cases hc : seen.contains (globalDedupKey s) = true
            · rw [if_pos hc] at hmem
              exact hk hmem
            · rw [if_neg hc] at hmem
              rcases List.mem_append.mp hmem with h | h
              · exact hk h
              · simp at h
                exact hne h

/-- C2: across the whole aggregation, records are unique by their
hostname-address-port key: the output keys are pairwise distinct, every
record offered by an error-free batch is represented, the surviving record
with a given key is exactly the first one processed, the key ignores the
serviceType and text fields, and the seen-set query is idempotent — once a
key is inserted, membership answers already-seen, and inserting again
changes nothing. -/
theorem aggregate_global_dedup (batches : List Batch) :
    List.Nodup ((aggregate batches).map globalDedupKey)
    ∧ (∀ s ∈ flattenOK batches,
        globalDedupKey s ∈ (aggregate batches).map globalDedupKey)
    ∧ (∀ k : String,
        (aggregate batches).find? (fun s => globalDedupKey s == k)
          = (flattenOK batches).find? (fun s => globalDedupKey s == k))
    ∧ (∀ s t : Service, s.hostname = t.hostname → s.address = t.address →
        s.port = t.port → globalDedupKey s = globalDedupKey t)
    ∧ (∀ (seen : List String) (k : String),
        setMember (setInsert seen k) k = true
        ∧ setInsert (setInsert seen k) k = setInsert seen k) := by
  refine ⟨?_, ?_, ?_, ?_, ?_⟩
  · rw [aggregate_eq]
    exact (dedupServicesAux_nodup (flattenOK batches) []).1
  · intro s hs
    rw [aggregate_eq]
    rcases dedupServicesAux_covers (flattenOK batches) [] s hs with h | h
    · simp at h
    · exact h
  · intro k
    rw [aggregate_eq]
    exact dedupServicesAux_find (flattenOK batches) [] k (by simp)
  · intro s t h₁ h₂ h₃
    unfold globalDedupKey buildKey
    rw [h₁, h₂, h₃]
  · intro seen k
    exact ⟨setMember_setInsert_self seen k, setInsert_idem seen k⟩

/-- C3 counterexample: on the empty catalog the multi-service run does not
fail with the spec's NoServicesConfigured error — at this concrete input it
returns the empty result list with no run error at all (while it does
perform zero resolver invocations). -/
theorem multiRun_empty_catalog_no_error :
    multiRun [] (fun _ => ResolverOutcome.initFailed) = ([], none)
    ∧ resolverInvocations [] = 0
    ∧ (multiRun [] (fun _ => ResolverOutcome.initFailed)).2
        ≠ some RunError.noServicesConfigured := by
  refine ⟨rfl, rfl, ?_⟩
  intro h
  simp [multiRun] at h

/-- C3 amended: with an empty catalog and no single-service filter, the run
performs zero resolver invocations and completes with an empty aggregated
list and no error (the code defines no NoServicesConfigured error; it only
prints a no-services notice and exits successfully). -/
theorem multiRun_empty_catalog (env : String → ResolverOutcome) :
    multiRun [] env = ([], none) ∧ resolverInvocations [] = 0 :=
  ⟨rfl, rfl⟩

/-- C8: in single-service mode each error class exits with its own code —
resolver-init failure 3, browse failure 4, timeout with zero results 5, any
other failure the generic 1 — the codes are pairwise distinct, an error
always exits with its classified code, and a successful query proceeds and
never takes an error exit; the end-to-end runs over the resolver outcomes
hit exactly those codes. -/
theorem singleService_exit_codes (name : String) (res : List Service) :
    classifyExit DiscError.resolverInit = 3
    ∧ classifyExit DiscError.browseFailed = 4
    ∧ classifyExit DiscError.timedOutZero = 5
    ∧ classifyExit DiscError.other = 1
    ∧ List.Nodup [exitOK, exitErr, exitUsage, exitResolveInit, exitBrowseFail, exitTimeoutZero]
    ∧ (∀ e : DiscError, runSingle (res, some e) = SingleOutcome.exitWith (classifyExit e))
    ∧ runSingle (res, none) = SingleOutcome.proceed res
    ∧ (∀ c : Nat, runSingle (res, none) ≠ SingleOutcome.exitWith c)
    ∧ runSingleService name ResolverOutcome.initFailed = SingleOutcome.exitWith exitResolveInit
    ∧ runSingleService name ResolverOutcome.browseFailed = SingleOutcome.exitWith exitBrowseFail
    ∧ runSingleService name (ResolverOutcome.stream [] Terminator.deadlineExceeded)
        = SingleOutcome.exitWith exitTimeoutZero := by
  refine ⟨rfl, rfl, rfl, rfl, by decide, fun e => rfl, rfl, ?_, rfl, rfl, rfl⟩
  intro c h
  simp [runSingle] at h

/-- C9: whatever interleaving the scheduler takes from the launch of `n`
worker tasks, the number of tasks holding a semaphore slot never exceeds the
capacity, and no task is dropped — every task is still pending, running or
done; the default capacity is 10. -/
theorem sched_semaphore_bound (cap n : Nat) (st : SchedState)
    (h : SchedReachable cap n st) :
    st.running ≤ cap
    ∧ st.pending + st.running + st.done = n
    ∧ maxConcurrentDiscover = 10 := by
  induction h with
  | init => exact ⟨Nat.zero_le cap, by simp, rfl⟩
  | step hr hs ih =>
      obtain ⟨ih₁, ih₂, -⟩ := ih
      cases hs with
      | acquire hp hcap =>
          refine ⟨hcap, ?_, rfl⟩
          dsimp only at *
          omega
      | finish hrun =>
          refine ⟨?_, ?_, rfl⟩ <;>
            · dsimp only at *
              omega

/-- A concrete run of the scheduler: launching three workers and letting one
acquire a slot respects the default bound and loses no task. -/
theorem sched_semaphore_bound_example :
    (SchedState.mk 2 1 0).running ≤ maxConcurrentDiscover
    ∧ (SchedState.mk 2 1 0).pending + (SchedState.mk 2 1 0).running
        + (SchedState.mk 2 1 0).done = 3
    ∧ maxConcurrentDiscover = 10 :=
  sched_semaphore_bound maxConcurrentDiscover 3 (SchedState.mk 2 1 0)
    (SchedReachable.step SchedReachable.init
      (SchedStep.acquire (SchedState.mk 3 0 0) (by decide) (by decide)))

end MdnsDiscover
